import Mathlib

/-!
Verification of the ACPC alignment module (`acpcModule1.py`).

The core of the repository is `getMatrixToACPC(ac, pc, ih)`: given the
anterior commissure `ac`, posterior commissure `pc` and a midline point
`ih` (each a 3-component numpy array of floats), it builds a 4x4
homogeneous rigid transform whose rotation rows are an orthonormal frame
derived from the landmarks and whose translation puts the
mid-commissural point `(ac+pc)/2` at the origin.

Floating-point numpy arithmetic is modelled over the reals; `np.linalg.norm`
is the Euclidean norm `Real.sqrt (v . v)`, and division by a zero norm
(which in IEEE arithmetic produces NaN entries) is Lean's division by
zero, which yields `0` entries.  The surrounding Slicer UI classes are
out of scope except for the landmark-extraction loop of `myLogic.run`,
modelled below over a plain list of points.
-/

/-- A 3-component real vector, modelling a numpy array of length 3. -/
@[ext]
structure Vec3 where
  x : ℝ
  y : ℝ
  z : ℝ

namespace Vec3

instance : Zero Vec3 := ⟨⟨0, 0, 0⟩⟩

instance : Add Vec3 := ⟨fun a b => ⟨a.x + b.x, a.y + b.y, a.z + b.z⟩⟩

instance : Sub Vec3 := ⟨fun a b => ⟨a.x - b.x, a.y - b.y, a.z - b.z⟩⟩

instance : Neg Vec3 := ⟨fun a => ⟨-a.x, -a.y, -a.z⟩⟩

instance : SMul ℝ Vec3 := ⟨fun k a => ⟨k * a.x, k * a.y, k * a.z⟩⟩

noncomputable instance : HDiv Vec3 ℝ Vec3 := ⟨fun a s => ⟨a.x / s, a.y / s, a.z / s⟩⟩

@[simp] theorem zero_x : (0 : Vec3).x = 0 := rfl

@[simp] theorem zero_y : (0 : Vec3).y = 0 := rfl

@[simp] theorem zero_z : (0 : Vec3).z = 0 := rfl

@[simp] theorem add_x (a b : Vec3) : (a + b).x = a.x + b.x := rfl

@[simp] theorem add_y (a b : Vec3) : (a + b).y = a.y + b.y := rfl

@[simp] theorem add_z (a b : Vec3) : (a + b).z = a.z + b.z := rfl

@[simp] theorem sub_x (a b : Vec3) : (a - b).x = a.x - b.x := rfl

@[simp] theorem sub_y (a b : Vec3) : (a - b).y = a.y - b.y := rfl

@[simp] theorem sub_z (a b : Vec3) : (a - b).z = a.z - b.z := rfl

@[simp] theorem neg_x (a : Vec3) : (-a).x = -a.x := rfl

@[simp] theorem neg_y (a : Vec3) : (-a).y = -a.y := rfl

@[simp] theorem neg_z (a : Vec3) : (-a).z = -a.z := rfl

@[simp] theorem smul_x (k : ℝ) (a : Vec3) : (k • a).x = k * a.x := rfl

@[simp] theorem smul_y (k : ℝ) (a : Vec3) : (k • a).y = k * a.y := rfl

@[simp] theorem smul_z (k : ℝ) (a : Vec3) : (k • a).z = k * a.z := rfl

@[simp] theorem div_x (a : Vec3) (s : ℝ) : (a / s).x = a.x / s := rfl

@[simp] theorem div_y (a : Vec3) (s : ℝ) : (a / s).y = a.y / s := rfl

@[simp] theorem div_z (a : Vec3) (s : ℝ) : (a / s).z = a.z / s := rfl

theorem sub_eq_zero_iff (a b : Vec3) : a - b = 0 ↔ a = b := by
  constructor
  · intro h
    have hx : a.x - b.x = 0 := congrArg Vec3.x h
    have hy : a.y - b.y = 0 := congrArg Vec3.y h
    have hz : a.z - b.z = 0 := congrArg Vec3.z h
    ext <;> linarith
  · intro h
    subst h
    ext <;> simp

end Vec3

/-- Dot product of 3-vectors (`np.dot` on length-3 arrays). -/
def dot3 (a b : Vec3) : ℝ := a.x * b.x + a.y * b.y + a.z * b.z

/-- Cross product of 3-vectors (`np.cross`). -/
def cross3 (a b : Vec3) : Vec3 :=
  ⟨a.y * b.z - a.z * b.y, a.z * b.x - a.x * b.z, a.x * b.y - a.y * b.x⟩

/-- Euclidean norm of a 3-vector (`np.linalg.norm`). -/
noncomputable def norm3 (a : Vec3) : ℝ := Real.sqrt (dot3 a a)

/-- Application of a 3x3 matrix given by its rows to a vector
(`np.dot(rotation, v)` where `rotation = np.vstack([r0, r1, r2])`). -/
def rotApply (r0 r1 r2 v : Vec3) : Vec3 := ⟨dot3 r0 v, dot3 r1 v, dot3 r2 v⟩

/-- Determinant of the 3x3 matrix with rows `r0, r1, r2`. -/
def det3 (r0 r1 r2 : Vec3) : ℝ :=
  r0.x * (r1.y * r2.z - r1.z * r2.y)
    - r0.y * (r1.x * r2.z - r1.z * r2.x)
    + r0.z * (r1.x * r2.y - r1.y * r2.x)

/-- 4x4 homogeneous matrix as built by `getMatrixToACPC`: `np.eye(4)` with
`matrix[:3, :3] = rotation` (rows `xRow`, `yRow`, `zRow`), `matrix[:3, 3] =
translation` (`tCol`), and the bottom row `b0 b1 b2 b3` left from `np.eye(4)`
as `[0, 0, 0, 1]`. -/
structure Mat4 where
  xRow : Vec3
  yRow : Vec3
  zRow : Vec3
  tCol : Vec3
  b0 : ℝ
  b1 : ℝ
  b2 : ℝ
  b3 : ℝ

/-- `pcAc = ac - pc`, the vector of acpc direction (line 26). -/
def pcAcOf (ac pc : Vec3) : Vec3 := ac - pc

/-- `yAxis = pcAc / np.linalg.norm(pcAc)` (line 27). -/
noncomputable def yAxisOf (ac pc : Vec3) : Vec3 := pcAcOf ac pc / norm3 (pcAcOf ac pc)

/-- `acIhDir = ih - ac` (line 30). -/
def acIhDirOf (ac ih : Vec3) : Vec3 := ih - ac

/-- `xAxis = np.cross(yAxis, acIhDir)` followed by `xAxis /= np.linalg.norm(xAxis)`
(lines 31-32). -/
noncomputable def xAxisOf (ac pc ih : Vec3) : Vec3 :=
  cross3 (yAxisOf ac pc) (acIhDirOf ac ih)
    / norm3 (cross3 (yAxisOf ac pc) (acIhDirOf ac ih))

/-- `zAxis = np.cross(xAxis, yAxis)` (line 35). -/
noncomputable def zAxisOf (ac pc ih : Vec3) : Vec3 :=
  cross3 (xAxisOf ac pc ih) (yAxisOf ac pc)

/-- `translation = -np.dot(rotation, ac - (np.dot(yAxis, 0.5*np.linalg.norm(pcAc))))`
(line 43).  `np.dot` of a vector with a scalar is scalar multiplication, so the
inner expression is `ac - (0.5 * norm(pcAc)) • yAxis`. -/
noncomputable def translationOf (ac pc ih : Vec3) : Vec3 :=
  - rotApply (xAxisOf ac pc ih) (yAxisOf ac pc) (zAxisOf ac pc ih)
      (ac - (0.5 * norm3 (pcAcOf ac pc)) • yAxisOf ac pc)

/-- The full `getMatrixToACPC(ac, pc, ih)` (lines 23-52): rotation rows are
`xAxis`, `yAxis`, `zAxis`, the translation column is `translation`, and the
bottom row `[0,0,0,1]` comes from `np.eye(4)`. -/
noncomputable def getMatrixToACPC (ac pc ih : Vec3) : Mat4 :=
  { xRow := xAxisOf ac pc ih
    yRow := yAxisOf ac pc
    zRow := zAxisOf ac pc ih
    tCol := translationOf ac pc ih
    b0 := 0
    b1 := 0
    b2 := 0
    b3 := 1 }

/-- Applying the homogeneous 4x4 matrix to the homogeneous point `(v, 1)`:
the first three components are `R v + t`, the fourth is the bottom row applied
to `(v, 1)`. -/
def applyHom (M : Mat4) (v : Vec3) : Vec3 × ℝ :=
  (⟨dot3 M.xRow v + M.tCol.x, dot3 M.yRow v + M.tCol.y, dot3 M.zRow v + M.tCol.z⟩,
   M.b0 * v.x + M.b1 * v.y + M.b2 * v.z + M.b3)

/-- The mid-commissural point `(ac + pc) / 2`. -/
noncomputable def mcpOf (ac pc : Vec3) : Vec3 := (ac + pc) / (2 : ℝ)

/-! ### Basic facts about the vector operations -/

theorem dot3_self_nonneg (a : Vec3) : 0 ≤ dot3 a a := by
  unfold dot3
  nlinarith [mul_self_nonneg a.x, mul_self_nonneg a.y, mul_self_nonneg a.z]

theorem dot3_self_eq_zero_iff (a : Vec3) : dot3 a a = 0 ↔ a = 0 := by
  constructor
  · intro h
    unfold dot3 at h
    have hx : a.x * a.x = 0 := by
      nlinarith [mul_self_nonneg a.x, mul_self_nonneg a.y, mul_self_nonneg a.z]
    have hy : a.y * a.y = 0 := by
      nlinarith [mul_self_nonneg a.x, mul_self_nonneg a.y, mul_self_nonneg a.z]
    have hz : a.z * a.z = 0 := by
      nlinarith [mul_self_nonneg a.x, mul_self_nonneg a.y, mul_self_nonneg a.z]
    ext
    · exact mul_self_eq_zero.mp hx
    · exact mul_self_eq_zero.mp hy
    · exact mul_self_eq_zero.mp hz
  · intro h
    subst h
    unfold dot3
    simp

theorem norm3_pos (a : Vec3) (ha : a ≠ 0) : 0 < norm3 a := by
  unfold norm3
  apply Real.sqrt_pos.mpr
  rcases lt_or_eq_of_le (dot3_self_nonneg a) with h | h
  · exact h
  · exact absurd ((dot3_self_eq_zero_iff a).mp h.symm) ha

theorem norm3_mul_self (a : Vec3) : norm3 a * norm3 a = dot3 a a :=
  Real.mul_self_sqrt (dot3_self_nonneg a)

theorem norm3_ne_zero (a : Vec3) (ha : a ≠ 0) : norm3 a ≠ 0 :=
  ne_of_gt (norm3_pos a ha)

theorem norm3_eq_one_of_dot (a : Vec3) (h : dot3 a a = 1) : norm3 a = 1 := by
  unfold norm3
  rw [h, Real.sqrt_one]

theorem dot3_normalize_self (a : Vec3) (ha : a ≠ 0) :
    dot3 (a / norm3 a) (a / norm3 a) = 1 := by
  have hs : norm3 a ≠ 0 := norm3_ne_zero a ha
  have h2 : norm3 a * norm3 a = dot3 a a := norm3_mul_self a
  unfold dot3 at h2 ⊢
  simp only [Vec3.div_x, Vec3.div_y, Vec3.div_z]
  field_simp
  linarith

theorem dot3_normalize_left (a : Vec3) (ha : a ≠ 0) :
    dot3 (a / norm3 a) a = norm3 a := by
  have hs : norm3 a ≠ 0 := norm3_ne_zero a ha
  have h2 : norm3 a * norm3 a = dot3 a a := norm3_mul_self a
  unfold dot3 at h2 ⊢
  simp only [Vec3.div_x, Vec3.div_y, Vec3.div_z]
  field_simp
  linarith

theorem cross3_div_left (a b : Vec3) (s : ℝ) :
    cross3 (a / s) b = cross3 a b / s := by
  unfold cross3
  ext <;> simp <;> ring

theorem div_eq_zero_of_ne (a : Vec3) (s : ℝ) (hs : s ≠ 0) (h : a / s = 0) :
    a = 0 := by
  have hx : a.x / s = 0 := congrArg Vec3.x h
  have hy : a.y / s = 0 := congrArg Vec3.y h
  have hz : a.z / s = 0 := congrArg Vec3.z h
  ext
  · exact (div_eq_zero_iff.mp hx).resolve_right hs
  · exact (div_eq_zero_iff.mp hy).resolve_right hs
  · exact (div_eq_zero_iff.mp hz).resolve_right hs

/-! ### Cross-product identities (pure polynomial facts) -/

theorem dot3_cross_left (a b : Vec3) : dot3 (cross3 a b) a = 0 := by
  unfold dot3 cross3
  ring

theorem dot3_cross_right (a b : Vec3) : dot3 (cross3 a b) b = 0 := by
  unfold dot3 cross3
  ring

theorem dot3_cross_self (a b : Vec3) :
    dot3 (cross3 a b) (cross3 a b) = dot3 a a * dot3 b b - dot3 a b * dot3 a b := by
  unfold dot3 cross3
  ring

theorem det3_eq_dot_cross (a b c : Vec3) : det3 a b c = dot3 (cross3 a b) c := by
  unfold det3 dot3 cross3
  ring

theorem dot3_comm (a b : Vec3) : dot3 a b = dot3 b a := by
  unfold dot3
  ring

/-- Scaled perpendicularity: the normalized cross of a scaled copy of `a` with
anything is still perpendicular to `a`, whatever the scaling divisors are. -/
theorem dot3_crossdiv_left (a b : Vec3) (s n : ℝ) :
    dot3 (cross3 (a / s) b / n) a = 0 := by
  unfold dot3 cross3
  simp only [Vec3.div_x, Vec3.div_y, Vec3.div_z]
  ring

theorem dot3_cross_divright (v a : Vec3) (s : ℝ) :
    dot3 (cross3 v (a / s)) a = 0 := by
  unfold dot3 cross3
  simp only [Vec3.div_x, Vec3.div_y, Vec3.div_z]
  ring

theorem dot3_crossdiv_self (a b : Vec3) (n : ℝ) :
    dot3 (cross3 a b / n) a = 0 := by
  unfold dot3 cross3
  simp only [Vec3.div_x, Vec3.div_y, Vec3.div_z]
  ring

/-! ### The frame built by getMatrixToACPC -/

theorem pcAcOf_ne_zero (ac pc : Vec3) (h : ac ≠ pc) : pcAcOf ac pc ≠ 0 := by
  unfold pcAcOf
  intro hz
  exact h ((Vec3.sub_eq_zero_iff ac pc).mp hz)

theorem crossY_eq_div (ac pc ih : Vec3) :
    cross3 (yAxisOf ac pc) (acIhDirOf ac ih)
      = cross3 (pcAcOf ac pc) (acIhDirOf ac ih) / norm3 (pcAcOf ac pc) := by
  unfold yAxisOf
  exact cross3_div_left (pcAcOf ac pc) (acIhDirOf ac ih) (norm3 (pcAcOf ac pc))

theorem crossY_ne_zero (ac pc ih : Vec3) (h1 : ac ≠ pc)
    (h2 : cross3 (ac - pc) (ih - ac) ≠ 0) :
    cross3 (yAxisOf ac pc) (acIhDirOf ac ih) ≠ 0 := by
  rw [crossY_eq_div]
  intro hz
  exact h2 (div_eq_zero_of_ne _ _ (norm3_ne_zero _ (pcAcOf_ne_zero ac pc h1)) hz)

theorem dot3_self_yAxisOf (ac pc : Vec3) (h1 : ac ≠ pc) :
    dot3 (yAxisOf ac pc) (yAxisOf ac pc) = 1 := by
  unfold yAxisOf
  exact dot3_normalize_self (pcAcOf ac pc) (pcAcOf_ne_zero ac pc h1)

theorem dot3_self_xAxisOf (ac pc ih : Vec3) (h1 : ac ≠ pc)
    (h2 : cross3 (ac - pc) (ih - ac) ≠ 0) :
    dot3 (xAxisOf ac pc ih) (xAxisOf ac pc ih) = 1 := by
  unfold xAxisOf
  exact dot3_normalize_self _ (crossY_ne_zero ac pc ih h1 h2)

theorem dot3_xAxisOf_yAxisOf (ac pc ih : Vec3) :
    dot3 (xAxisOf ac pc ih) (yAxisOf ac pc) = 0 := by
  unfold xAxisOf
  exact dot3_crossdiv_self (yAxisOf ac pc) (acIhDirOf ac ih) _

theorem dot3_zAxisOf_xAxisOf (ac pc ih : Vec3) :
    dot3 (zAxisOf ac pc ih) (xAxisOf ac pc ih) = 0 := by
  unfold zAxisOf
  exact dot3_cross_left (xAxisOf ac pc ih) (yAxisOf ac pc)

theorem dot3_zAxisOf_yAxisOf (ac pc ih : Vec3) :
    dot3 (zAxisOf ac pc ih) (yAxisOf ac pc) = 0 := by
  unfold zAxisOf
  exact dot3_cross_right (xAxisOf ac pc ih) (yAxisOf ac pc)

theorem dot3_self_zAxisOf (ac pc ih : Vec3) (h1 : ac ≠ pc)
    (h2 : cross3 (ac - pc) (ih - ac) ≠ 0) :
    dot3 (zAxisOf ac pc ih) (zAxisOf ac pc ih) = 1 := by
  unfold zAxisOf
  rw [dot3_cross_self, dot3_self_xAxisOf ac pc ih h1 h2, dot3_self_yAxisOf ac pc h1,
    dot3_xAxisOf_yAxisOf ac pc ih]
  ring

theorem det3_frame (ac pc ih : Vec3) (h1 : ac ≠ pc)
    (h2 : cross3 (ac - pc) (ih - ac) ≠ 0) :
    det3 (xAxisOf ac pc ih) (yAxisOf ac pc) (zAxisOf ac pc ih) = 1 := by
  rw [det3_eq_dot_cross]
  have hz : cross3 (xAxisOf ac pc ih) (yAxisOf ac pc) = zAxisOf ac pc ih := rfl
  rw [hz]
  rw [dot3_comm]
  exact dot3_self_zAxisOf ac pc ih h1 h2

/-! ### The translation puts the mid-commissural point at the origin -/

/-- The inner expression of line 43, `ac - (0.5 * norm(pcAc)) • yAxis`, is the
true midpoint `(ac + pc) / 2`: since `yAxis = (ac - pc) / norm(ac - pc)`, the
offset `0.5 * norm * yAxis` is exactly `0.5 * (ac - pc)`. -/
theorem offset_eq_mcp (ac pc : Vec3) (h1 : ac ≠ pc) :
    ac - (0.5 * norm3 (pcAcOf ac pc)) • yAxisOf ac pc = mcpOf ac pc := by
  have hs : norm3 (ac - pc) ≠ 0 := norm3_ne_zero (ac - pc) (pcAcOf_ne_zero ac pc h1)
  unfold yAxisOf pcAcOf mcpOf
  ext <;> (simp; field_simp; ring)

theorem translationOf_eq_neg_rot_mcp (ac pc ih : Vec3) (h1 : ac ≠ pc) :
    translationOf ac pc ih
      = - rotApply (xAxisOf ac pc ih) (yAxisOf ac pc) (zAxisOf ac pc ih) (mcpOf ac pc) := by
  unfold translationOf
  rw [offset_eq_mcp ac pc h1]

/-- Applying the assembled matrix to a point: the affine part is
`R (v - mcp)` once `ac ≠ pc`, by linearity of the dot product. -/
theorem applyHom_fst (ac pc ih v : Vec3) (h1 : ac ≠ pc) :
    (applyHom (getMatrixToACPC ac pc ih) v).1
      = rotApply (xAxisOf ac pc ih) (yAxisOf ac pc) (zAxisOf ac pc ih) (v - mcpOf ac pc) := by
  unfold applyHom getMatrixToACPC
  rw [translationOf_eq_neg_rot_mcp ac pc ih h1]
  unfold rotApply dot3
  ext <;> simp <;> ring

theorem applyHom_snd (ac pc ih v : Vec3) :
    (applyHom (getMatrixToACPC ac pc ih) v).2 = 1 := by
  unfold applyHom getMatrixToACPC
  simp

theorem applyHom_mcp_eq_zero (ac pc ih : Vec3) (h1 : ac ≠ pc) :
    (applyHom (getMatrixToACPC ac pc ih) (mcpOf ac pc)).1 = 0 := by
  rw [applyHom_fst ac pc ih (mcpOf ac pc) h1]
  unfold rotApply dot3
  ext <;> simp

/-! ### Images of ac and pc -/

theorem dot3_xAxisOf_pcAc (ac pc ih : Vec3) :
    dot3 (xAxisOf ac pc ih) (ac - pc) = 0 := by
  unfold xAxisOf yAxisOf pcAcOf
  exact dot3_crossdiv_left (ac - pc) (acIhDirOf ac ih) _ _

theorem dot3_zAxisOf_pcAc (ac pc ih : Vec3) :
    dot3 (zAxisOf ac pc ih) (ac - pc) = 0 := by
  unfold zAxisOf yAxisOf pcAcOf
  exact dot3_cross_divright (xAxisOf ac pc ih) (ac - pc) _

theorem dot3_yAxisOf_pcAc (ac pc : Vec3) (h1 : ac ≠ pc) :
    dot3 (yAxisOf ac pc) (ac - pc) = norm3 (ac - pc) := by
  unfold yAxisOf pcAcOf
  exact dot3_normalize_left (ac - pc) (pcAcOf_ne_zero ac pc h1)

theorem dot3_smul_right (u : Vec3) (k : ℝ) (v : Vec3) :
    dot3 u (k • v) = k * dot3 u v := by
  unfold dot3
  simp
  ring

theorem ac_sub_mcp (ac pc : Vec3) : ac - mcpOf ac pc = (0.5 : ℝ) • (ac - pc) := by
  unfold mcpOf
  ext <;> (simp; ring)

theorem pc_sub_mcp (ac pc : Vec3) : pc - mcpOf ac pc = (-0.5 : ℝ) • (ac - pc) := by
  unfold mcpOf
  ext <;> (simp; ring)

theorem applyHom_ac (ac pc ih : Vec3) (h1 : ac ≠ pc) :
    (applyHom (getMatrixToACPC ac pc ih) ac).1 = ⟨0, norm3 (ac - pc) / 2, 0⟩ := by
  rw [applyHom_fst ac pc ih ac h1]
  unfold rotApply
  rw [ac_sub_mcp, dot3_smul_right, dot3_smul_right, dot3_smul_right,
    dot3_xAxisOf_pcAc, dot3_zAxisOf_pcAc, dot3_yAxisOf_pcAc ac pc h1]
  ext <;> (simp; try ring)

theorem applyHom_pc (ac pc ih : Vec3) (h1 : ac ≠ pc) :
    (applyHom (getMatrixToACPC ac pc ih) pc).1 = ⟨0, -(norm3 (ac - pc) / 2), 0⟩ := by
  rw [applyHom_fst ac pc ih pc h1]
  unfold rotApply
  rw [pc_sub_mcp, dot3_smul_right, dot3_smul_right, dot3_smul_right,
    dot3_xAxisOf_pcAc, dot3_zAxisOf_pcAc, dot3_yAxisOf_pcAc ac pc h1]
  ext <;> (simp; try ring)

/-! ### Swapping ac and pc -/

theorem dot3_sub_swap (a b : Vec3) : dot3 (b - a) (b - a) = dot3 (a - b) (a - b) := by
  unfold dot3
  simp
  ring

theorem norm3_swap (a b : Vec3) : norm3 (b - a) = norm3 (a - b) := by
  unfold norm3
  rw [dot3_sub_swap]

theorem yAxisOf_swap (ac pc : Vec3) : yAxisOf pc ac = - yAxisOf ac pc := by
  unfold yAxisOf pcAcOf
  rw [norm3_swap ac pc]
  ext <;> (simp; try ring)

theorem mcpOf_swap (ac pc : Vec3) : mcpOf pc ac = mcpOf ac pc := by
  unfold mcpOf
  ext <;> (simp; ring)

/-! ### The midline point matters only through the direction of ih - ac -/

theorem acIhDirOf_ray (ac ih : Vec3) (k : ℝ) :
    acIhDirOf ac (ac + k • (ih - ac)) = k • acIhDirOf ac ih := by
  unfold acIhDirOf
  ext <;> (simp; try ring)

theorem cross3_smul_right (a : Vec3) (k : ℝ) (b : Vec3) :
    cross3 a (k • b) = k • cross3 a b := by
  unfold cross3
  ext <;> (simp; ring)

theorem norm3_smul (k : ℝ) (v : Vec3) (hk : 0 ≤ k) :
    norm3 (k • v) = k * norm3 v := by
  unfold norm3
  have h : dot3 (k • v) (k • v) = k ^ 2 * dot3 v v := by
    unfold dot3
    simp
    ring
  rw [h, Real.sqrt_mul (sq_nonneg k), Real.sqrt_sq hk]

theorem smul_div_smul (k : ℝ) (v : Vec3) (n : ℝ) (hk : k ≠ 0) :
    (k • v) / (k * n) = v / n := by
  ext <;> (simp; rw [mul_div_mul_left _ _ hk])

theorem xAxisOf_ray (ac pc ih : Vec3) (k : ℝ) (hk : 0 < k) :
    xAxisOf ac pc (ac + k • (ih - ac)) = xAxisOf ac pc ih := by
  unfold xAxisOf
  rw [acIhDirOf_ray, cross3_smul_right, norm3_smul k _ (le_of_lt hk),
    smul_div_smul k _ _ (ne_of_gt hk)]

theorem zAxisOf_ray (ac pc ih : Vec3) (k : ℝ) (hk : 0 < k) :
    zAxisOf ac pc (ac + k • (ih - ac)) = zAxisOf ac pc ih := by
  unfold zAxisOf
  rw [xAxisOf_ray ac pc ih k hk]

theorem translationOf_ray (ac pc ih : Vec3) (k : ℝ) (hk : 0 < k) :
    translationOf ac pc (ac + k • (ih - ac)) = translationOf ac pc ih := by
  unfold translationOf
  rw [xAxisOf_ray ac pc ih k hk, zAxisOf_ray ac pc ih k hk]

theorem getMatrixToACPC_ray (ac pc ih : Vec3) (k : ℝ) (hk : 0 < k) :
    getMatrixToACPC ac pc (ac + k • (ih - ac)) = getMatrixToACPC ac pc ih := by
  unfold getMatrixToACPC
  rw [xAxisOf_ray ac pc ih k hk, zAxisOf_ray ac pc ih k hk,
    translationOf_ray ac pc ih k hk]

/-! ### Degenerate inputs flow through unchecked

`getMatrixToACPC` contains no validation: with `ac == pc` the norm of `pcAc`
is zero and every normalization divides by zero (IEEE: the rotation entries
become NaN; real model: they become 0).  With `ih` on the AC-PC line the
cross product is the zero vector and the x and z rows degenerate the same
way.  No `DegenerateInputError` (or any error) exists in the source. -/

theorem norm3_zero : norm3 0 = 0 := by
  unfold norm3 dot3
  simp

theorem cross3_zero_left (b : Vec3) : cross3 0 b = 0 := by
  unfold cross3
  ext <;> simp

theorem dot3_zero_left (b : Vec3) : dot3 0 b = 0 := by
  unfold dot3
  simp

theorem zero_div_vec (s : ℝ) : (0 : Vec3) / s = 0 := by
  ext <;> simp

theorem getMatrixToACPC_ac_eq_pc (ac ih : Vec3) :
    getMatrixToACPC ac ac ih = ⟨0, 0, 0, 0, 0, 0, 0, 1⟩ := by
  have hpcac : pcAcOf ac ac = 0 := by
    unfold pcAcOf
    ext <;> simp
  have hy : yAxisOf ac ac = 0 := by
    unfold yAxisOf
    rw [hpcac, zero_div_vec]
  have hx : xAxisOf ac ac ih = 0 := by
    unfold xAxisOf
    rw [hy, cross3_zero_left, zero_div_vec]
  have hz : zAxisOf ac ac ih = 0 := by
    unfold zAxisOf
    rw [hx, cross3_zero_left]
  have ht : translationOf ac ac ih = 0 := by
    unfold translationOf
    rw [hx, hy, hz]
    unfold rotApply
    rw [dot3_zero_left]
    ext <;> simp
  unfold getMatrixToACPC
  rw [hx, hy, hz, ht]

/-- Parallel vectors have zero cross product, in the scaled form in which they
appear when `ih` lies on the AC-PC line. -/
theorem cross3_div_smul_self (a : Vec3) (s k : ℝ) :
    cross3 (a / s) (k • a) = 0 := by
  unfold cross3
  ext <;> (simp; ring)

theorem getMatrixToACPC_collinear (ac pc : Vec3) (k : ℝ) :
    (getMatrixToACPC ac pc (ac + k • (ac - pc))).xRow = 0 ∧
    (getMatrixToACPC ac pc (ac + k • (ac - pc))).zRow = 0 := by
  have hdir : acIhDirOf ac (ac + k • (ac - pc)) = k • (ac - pc) := by
    unfold acIhDirOf
    ext <;> (simp; try ring)
  have hcross : cross3 (yAxisOf ac pc) (acIhDirOf ac (ac + k • (ac - pc))) = 0 := by
    rw [hdir]
    unfold yAxisOf pcAcOf
    exact cross3_div_smul_self (ac - pc) _ k
  have hx : xAxisOf ac pc (ac + k • (ac - pc)) = 0 := by
    unfold xAxisOf
    rw [hcross, zero_div_vec]
  have hz : zAxisOf ac pc (ac + k • (ac - pc)) = 0 := by
    unfold zAxisOf
    rw [hx, cross3_zero_left]
  constructor
  · show xAxisOf ac pc (ac + k • (ac - pc)) = 0
    exact hx
  · show zAxisOf ac pc (ac + k • (ac - pc)) = 0
    exact hz

/-! ### The landmark-extraction loop of myLogic.run (lines 186-201) -/

/-- State of the extraction loop: before the loop none of the Python locals
`ac`, `pc`, `ih` is bound; the `if i == 0/1/2` tests bind them. -/
structure ExtractState where
  ac : Option Vec3
  pc : Option Vec3
  ih : Option Vec3

/-- One iteration of the loop body (lines 190-198): fetch the i-th fiducial
position `ras` and bind `ac`, `pc` or `ih` according to `i`; any further
index leaves the state unchanged. -/
def extractStep (s : ExtractState) (i : Nat) (ras : Vec3) : ExtractState :=
  { ac := if i = 0 then some ras else s.ac
    pc := if i = 1 then some ras else s.pc
    ih := if i = 2 then some ras else s.ih }

/-- The whole loop `for i in range(acpcFid.GetNumberOfFiducials())`, with the
fiducial node modelled as the list of its points. -/
def extractFiducials (pts : List Vec3) : ExtractState :=
  (pts.enum).foldl (fun s p => extractStep s p.1 p.2) ⟨none, none, none⟩

/-- `myLogic.run` up to the matrix computation (line 201): extract the three
landmarks and call `getMatrixToACPC(ac, pc, ih)`.  With fewer than three
fiducials the Python locals are unbound and line 201 raises `NameError`,
modelled as `none`.  There is no count check, no finiteness check and no
`InvalidInputError` anywhere in the source. -/
noncomputable def myLogicRunMatrix (pts : List Vec3) : Option Mat4 :=
  match (extractFiducials pts).ac, (extractFiducials pts).pc, (extractFiducials pts).ih with
  | some ac, some pc, some ih => some (getMatrixToACPC ac pc ih)
  | _, _, _ => none

/-! ### Heap model: getMatrixToACPC only writes freshly allocated arrays -/

/-- A heap of numpy arrays: `data a` is the array at address `a`; addresses
below `next` are the allocated ones. -/
structure Mem where
  data : Nat → Vec3
  next : Nat

/-- Allocate a fresh array holding `v`: returns the new heap and the address. -/
def allocMem (m : Mem) (v : Vec3) : Mem × Nat :=
  (⟨fun b => if b = m.next then v else m.data b, m.next + 1⟩, m.next)

/-- Destructively overwrite the array at address `a` (numpy in-place `/=`). -/
def writeMem (m : Mem) (a : Nat) (v : Vec3) : Mem :=
  ⟨fun b => if b = a then v else m.data b, m.next⟩

/-- `getMatrixToACPC` with its heap traffic made explicit, one allocation per
numpy expression in lines 26-43 and the single in-place update of line 32
(`xAxis /= np.linalg.norm(xAxis)`); the inputs are the arrays at the three
given addresses. -/
noncomputable def getMatrixToACPCHeap (m0 : Mem) (acA pcA ihA : Nat) : Mem × Mat4 :=
  let ac := m0.data acA
  let pc := m0.data pcA
  let ih := m0.data ihA
  let r1 := allocMem m0 (ac - pc)
  let m1 := r1.1
  let pcAcA := r1.2
  let r2 := allocMem m1 (m1.data pcAcA / norm3 (m1.data pcAcA))
  let m2 := r2.1
  let yAxisA := r2.2
  let r3 := allocMem m2 (ih - ac)
  let m3 := r3.1
  let acIhDirA := r3.2
  let r4 := allocMem m3 (cross3 (m3.data yAxisA) (m3.data acIhDirA))
  let m4 := r4.1
  let xAxisA := r4.2
  let m5 := writeMem m4 xAxisA (m4.data xAxisA / norm3 (m4.data xAxisA))
  let r6 := allocMem m5 (cross3 (m5.data xAxisA) (m5.data yAxisA))
  let m6 := r6.1
  let zAxisA := r6.2
  let r7 := allocMem m6 (- rotApply (m6.data xAxisA) (m6.data yAxisA) (m6.data zAxisA)
      (m6.data acA - (0.5 * norm3 (m6.data pcAcA)) • m6.data yAxisA))
  let m7 := r7.1
  let transA := r7.2
  (m7, { xRow := m7.data xAxisA
         yRow := m7.data yAxisA
         zRow := m7.data zAxisA
         tCol := m7.data transA
         b0 := 0
         b1 := 0
         b2 := 0
         b3 := 1 })

set_option maxHeartbeats 1000000 in
/-- C9: `getMatrixToACPC` is pure.  In the heap-level rendering of its numpy
traffic, every write lands in a freshly allocated array (the only in-place
update, `xAxis /= ...`, hits the array just allocated for the cross product),
so every pre-existing array — the inputs `ac`, `pc`, `ih` included — is
unchanged, and the returned matrix is the one computed by the pure
function. -/
theorem getMatrixToACPCHeap_frame (m : Mem) (acA pcA ihA : Nat)
    (ha : acA < m.next) (hp : pcA < m.next) (hi : ihA < m.next) :
    (∀ a, a < m.next → ((getMatrixToACPCHeap m acA pcA ihA).1).data a = m.data a) ∧
    (getMatrixToACPCHeap m acA pcA ihA).2
      = getMatrixToACPC (m.data acA) (m.data pcA) (m.data ihA) := by
  constructor
  · intro a hlt
    simp only [getMatrixToACPCHeap, allocMem, writeMem]
    rw [if_neg (by omega : ¬ a = m.next + 5)]
    rw [if_neg (by omega : ¬ a = m.next + 4)]
    rw [if_neg (by omega : ¬ a = m.next + 3)]
    rw [if_neg (by omega : ¬ a = m.next + 3)]
    rw [if_neg (by omega : ¬ a = m.next + 2)]
    rw [if_neg (by omega : ¬ a = m.next + 1)]
    rw [if_neg (by omega : ¬ a = m.next)]
  · have e0 : acA ≠ m.next := by omega
    have e1 : acA ≠ m.next + 1 := by omega
    have e2 : acA ≠ m.next + 2 := by omega
    have e3 : acA ≠ m.next + 3 := by omega
    have e4 : acA ≠ m.next + 4 := by omega
    have e5 : acA ≠ m.next + 5 := by omega
    have f1 : m.next ≠ m.next + 1 := by omega
    have f2 : m.next ≠ m.next + 2 := by omega
    have f3 : m.next ≠ m.next + 3 := by omega
    have f4 : m.next ≠ m.next + 4 := by omega
    have f5 : m.next ≠ m.next + 5 := by omega
    simp [getMatrixToACPCHeap, allocMem, writeMem, getMatrixToACPC, xAxisOf,
      yAxisOf, zAxisOf, translationOf, pcAcOf, acIhDirOf, e0, e1, e2, e3, e4, e5,
      f1, f2, f3, f4, f5]

/-! ### The concrete scenario ac=(0,5,0), pc=(0,-5,0), ih=(0,0,10) -/

theorem norm3_ten_y : norm3 ⟨0, 10, 0⟩ = 10 := by
  unfold norm3 dot3
  norm_num
  rw [show (100 : ℝ) = 10 ^ 2 by norm_num]
  exact Real.sqrt_sq (by norm_num)

theorem norm3_ten_x : norm3 ⟨10, 0, 0⟩ = 10 := by
  unfold norm3 dot3
  norm_num
  rw [show (100 : ℝ) = 10 ^ 2 by norm_num]
  exact Real.sqrt_sq (by norm_num)

theorem getMatrixToACPC_concrete :
    getMatrixToACPC ⟨0, 5, 0⟩ ⟨0, -5, 0⟩ ⟨0, 0, 10⟩
      = ⟨⟨1, 0, 0⟩, ⟨0, 1, 0⟩, ⟨0, 0, 1⟩, ⟨0, 0, 0⟩, 0, 0, 0, 1⟩ := by
  have hpc : pcAcOf ⟨0, 5, 0⟩ ⟨0, -5, 0⟩ = ⟨0, 10, 0⟩ := by
    unfold pcAcOf
    ext <;> norm_num
  have hy : yAxisOf ⟨0, 5, 0⟩ ⟨0, -5, 0⟩ = ⟨0, 1, 0⟩ := by
    unfold yAxisOf
    rw [hpc, norm3_ten_y]
    ext <;> norm_num
  have hdir : acIhDirOf ⟨0, 5, 0⟩ ⟨0, 0, 10⟩ = ⟨0, -5, 10⟩ := by
    unfold acIhDirOf
    ext <;> norm_num
  have hcross : cross3 ⟨0, 1, 0⟩ ⟨0, -5, 10⟩ = ⟨10, 0, 0⟩ := by
    unfold cross3
    ext <;> norm_num
  have hx : xAxisOf ⟨0, 5, 0⟩ ⟨0, -5, 0⟩ ⟨0, 0, 10⟩ = ⟨1, 0, 0⟩ := by
    unfold xAxisOf
    rw [hy, hdir, hcross, norm3_ten_x]
    ext <;> norm_num
  have hz : zAxisOf ⟨0, 5, 0⟩ ⟨0, -5, 0⟩ ⟨0, 0, 10⟩ = ⟨0, 0, 1⟩ := by
    unfold zAxisOf
    rw [hx, hy]
    unfold cross3
    ext <;> norm_num
  have ht : translationOf ⟨0, 5, 0⟩ ⟨0, -5, 0⟩ ⟨0, 0, 10⟩ = ⟨0, 0, 0⟩ := by
    unfold translationOf
    rw [hx, hy, hz, hpc, norm3_ten_y]
    unfold rotApply dot3
    ext <;> norm_num
  unfold getMatrixToACPC
  rw [hx, hy, hz, ht]

/-! ### Claims -/

/-- C1: for every non-degenerate triple (`ac != pc`, `ih` not collinear with
the AC-PC line) the 4x4 matrix returned by `getMatrixToACPC` maps the
homogeneous midpoint `(ac+pc)/2` to the origin `(0,0,0)` (with homogeneous
coordinate 1). -/
theorem claim_transform_maps_midpoint_to_origin (ac pc ih : Vec3) (h1 : ac ≠ pc)
    (h2 : cross3 (ac - pc) (ih - ac) ≠ 0) :
    applyHom (getMatrixToACPC ac pc ih) (mcpOf ac pc) = ((0 : Vec3), (1 : ℝ)) := by
  rw [Prod.ext_iff]
  exact ⟨applyHom_mcp_eq_zero ac pc ih h1, applyHom_snd ac pc ih (mcpOf ac pc)⟩

theorem claim_transform_maps_midpoint_to_origin_witness :
    ((⟨0, 5, 0⟩ : Vec3) ≠ ⟨0, -5, 0⟩ ∧
      cross3 ((⟨0, 5, 0⟩ : Vec3) - ⟨0, -5, 0⟩) ((⟨0, 0, 10⟩ : Vec3) - ⟨0, 5, 0⟩) ≠ 0) ∧
    applyHom (getMatrixToACPC ⟨0, 5, 0⟩ ⟨0, -5, 0⟩ ⟨0, 0, 10⟩)
      (mcpOf ⟨0, 5, 0⟩ ⟨0, -5, 0⟩) = ((0 : Vec3), (1 : ℝ)) :=
  ⟨⟨by intro h; have hy := congrArg Vec3.y h; norm_num at hy,
    by intro h; have hx := congrArg Vec3.x h; norm_num [cross3] at hx⟩,
   claim_transform_maps_midpoint_to_origin ⟨0, 5, 0⟩ ⟨0, -5, 0⟩ ⟨0, 0, 10⟩
     (by intro h; have hy := congrArg Vec3.y h; norm_num at hy)
     (by intro h; have hx := congrArg Vec3.x h; norm_num [cross3] at hx)⟩

/-- C2: the translation actually computed on line 43,
`-R (ac - (0.5 * norm(ac-pc)) * yAxis)`, is exactly `-R mcp` with
`mcp = (ac+pc)/2`: the offset-from-ac formula equals the true-midpoint
formula. -/
theorem claim_translation_equals_neg_rot_mcp (ac pc ih : Vec3) (h1 : ac ≠ pc)
    (h2 : cross3 (ac - pc) (ih - ac) ≠ 0) :
    translationOf ac pc ih
      = - rotApply (xAxisOf ac pc ih) (yAxisOf ac pc) (zAxisOf ac pc ih) (mcpOf ac pc) :=
  translationOf_eq_neg_rot_mcp ac pc ih h1

theorem claim_translation_equals_neg_rot_mcp_witness :
    ((⟨0, 5, 0⟩ : Vec3) ≠ ⟨0, -5, 0⟩ ∧
      cross3 ((⟨0, 5, 0⟩ : Vec3) - ⟨0, -5, 0⟩) ((⟨0, 0, 10⟩ : Vec3) - ⟨0, 5, 0⟩) ≠ 0) ∧
    translationOf ⟨0, 5, 0⟩ ⟨0, -5, 0⟩ ⟨0, 0, 10⟩
      = - rotApply (xAxisOf ⟨0, 5, 0⟩ ⟨0, -5, 0⟩ ⟨0, 0, 10⟩) (yAxisOf ⟨0, 5, 0⟩ ⟨0, -5, 0⟩)
          (zAxisOf ⟨0, 5, 0⟩ ⟨0, -5, 0⟩ ⟨0, 0, 10⟩) (mcpOf ⟨0, 5, 0⟩ ⟨0, -5, 0⟩) :=
  ⟨⟨by intro h; have hy := congrArg Vec3.y h; norm_num at hy,
    by intro h; have hx := congrArg Vec3.x h; norm_num [cross3] at hx⟩,
   claim_translation_equals_neg_rot_mcp ⟨0, 5, 0⟩ ⟨0, -5, 0⟩ ⟨0, 0, 10⟩
     (by intro h; have hy := congrArg Vec3.y h; norm_num at hy)
     (by intro h; have hx := congrArg Vec3.x h; norm_num [cross3] at hx)⟩

/-- C3: for every non-degenerate triple the rotation block of the returned
matrix is orthonormal — each row of unit norm, pairwise dot products zero —
and its determinant is +1. -/
theorem claim_rotation_block_orthonormal_det_one (ac pc ih : Vec3) (h1 : ac ≠ pc)
    (h2 : cross3 (ac - pc) (ih - ac) ≠ 0) :
    norm3 (getMatrixToACPC ac pc ih).xRow = 1 ∧
    norm3 (getMatrixToACPC ac pc ih).yRow = 1 ∧
    norm3 (getMatrixToACPC ac pc ih).zRow = 1 ∧
    dot3 (getMatrixToACPC ac pc ih).xRow (getMatrixToACPC ac pc ih).yRow = 0 ∧
    dot3 (getMatrixToACPC ac pc ih).xRow (getMatrixToACPC ac pc ih).zRow = 0 ∧
    dot3 (getMatrixToACPC ac pc ih).yRow (getMatrixToACPC ac pc ih).zRow = 0 ∧
    det3 (getMatrixToACPC ac pc ih).xRow (getMatrixToACPC ac pc ih).yRow
      (getMatrixToACPC ac pc ih).zRow = 1 := by
  refine ⟨?_, ?_, ?_, ?_, ?_, ?_, ?_⟩
  · exact norm3_eq_one_of_dot _ (dot3_self_xAxisOf ac pc ih h1 h2)
  · exact norm3_eq_one_of_dot _ (dot3_self_yAxisOf ac pc h1)
  · exact norm3_eq_one_of_dot _ (dot3_self_zAxisOf ac pc ih h1 h2)
  · exact dot3_xAxisOf_yAxisOf ac pc ih
  · exact (dot3_comm _ _).trans (dot3_zAxisOf_xAxisOf ac pc ih)
  · exact (dot3_comm _ _).trans (dot3_zAxisOf_yAxisOf ac pc ih)
  · exact det3_frame ac pc ih h1 h2

theorem claim_rotation_block_orthonormal_det_one_witness :
    ((⟨0, 5, 0⟩ : Vec3) ≠ ⟨0, -5, 0⟩ ∧
      cross3 ((⟨0, 5, 0⟩ : Vec3) - ⟨0, -5, 0⟩) ((⟨0, 0, 10⟩ : Vec3) - ⟨0, 5, 0⟩) ≠ 0) ∧
    (norm3 (getMatrixToACPC ⟨0, 5, 0⟩ ⟨0, -5, 0⟩ ⟨0, 0, 10⟩).xRow = 1 ∧
     norm3 (getMatrixToACPC ⟨0, 5, 0⟩ ⟨0, -5, 0⟩ ⟨0, 0, 10⟩).yRow = 1 ∧
     norm3 (getMatrixToACPC ⟨0, 5, 0⟩ ⟨0, -5, 0⟩ ⟨0, 0, 10⟩).zRow = 1 ∧
     dot3 (getMatrixToACPC ⟨0, 5, 0⟩ ⟨0, -5, 0⟩ ⟨0, 0, 10⟩).xRow
       (getMatrixToACPC ⟨0, 5, 0⟩ ⟨0, -5, 0⟩ ⟨0, 0, 10⟩).yRow = 0 ∧
     dot3 (getMatrixToACPC ⟨0, 5, 0⟩ ⟨0, -5, 0⟩ ⟨0, 0, 10⟩).xRow
       (getMatrixToACPC ⟨0, 5, 0⟩ ⟨0, -5, 0⟩ ⟨0, 0, 10⟩).zRow = 0 ∧
     dot3 (getMatrixToACPC ⟨0, 5, 0⟩ ⟨0, -5, 0⟩ ⟨0, 0, 10⟩).yRow
       (getMatrixToACPC ⟨0, 5, 0⟩ ⟨0, -5, 0⟩ ⟨0, 0, 10⟩).zRow = 0 ∧
     det3 (getMatrixToACPC ⟨0, 5, 0⟩ ⟨0, -5, 0⟩ ⟨0, 0, 10⟩).xRow
       (getMatrixToACPC ⟨0, 5, 0⟩ ⟨0, -5, 0⟩ ⟨0, 0, 10⟩).yRow
       (getMatrixToACPC ⟨0, 5, 0⟩ ⟨0, -5, 0⟩ ⟨0, 0, 10⟩).zRow = 1) :=
  ⟨⟨by intro h; have hy := congrArg Vec3.y h; norm_num at hy,
    by intro h; have hx := congrArg Vec3.x h; norm_num [cross3] at hx⟩,
   claim_rotation_block_orthonormal_det_one ⟨0, 5, 0⟩ ⟨0, -5, 0⟩ ⟨0, 0, 10⟩
     (by intro h; have hy := congrArg Vec3.y h; norm_num at hy)
     (by intro h; have hx := congrArg Vec3.x h; norm_num [cross3] at hx)⟩

/-- C4: the source contains no degeneracy check and no `DegenerateInputError`
class: with `ac == pc` the function still returns a matrix, whose rotation
rows and translation all come out of divisions by the zero norm (NaN entries
under IEEE float semantics, `0` in this real-number model); with `ih` on the
AC-PC line (`ih = ac + k*(ac-pc)`, here `k = 2`) it returns a matrix whose x
and z rows degenerate the same way.  This evaluation refutes the claim that
`DegenerateInputError` is raised on degenerate input. -/
theorem claim_degenerate_input_evaluation :
    getMatrixToACPC ⟨1, 2, 3⟩ ⟨1, 2, 3⟩ ⟨0, 0, 1⟩ = ⟨0, 0, 0, 0, 0, 0, 0, 1⟩ ∧
    (getMatrixToACPC ⟨0, 0, 0⟩ ⟨0, -1, 0⟩ ⟨0, 2, 0⟩).xRow = 0 ∧
    (getMatrixToACPC ⟨0, 0, 0⟩ ⟨0, -1, 0⟩ ⟨0, 2, 0⟩).zRow = 0 := by
  have hcol : (⟨0, 2, 0⟩ : Vec3) = ⟨0, 0, 0⟩ + (2 : ℝ) • ((⟨0, 0, 0⟩ : Vec3) - ⟨0, -1, 0⟩) := by
    ext <;> norm_num
  refine ⟨getMatrixToACPC_ac_eq_pc ⟨1, 2, 3⟩ ⟨0, 0, 1⟩, ?_, ?_⟩
  · rw [hcol]
    exact (getMatrixToACPC_collinear ⟨0, 0, 0⟩ ⟨0, -1, 0⟩ 2).1
  · rw [hcol]
    exact (getMatrixToACPC_collinear ⟨0, 0, 0⟩ ⟨0, -1, 0⟩ 2).2

/-- C5: for every non-degenerate triple the images of `ac` and `pc` under the
returned transform are `(0, d/2, 0)` and `(0, -d/2, 0)` with `d` the (positive)
AC-PC distance: equal magnitude, opposite sign on the anteroposterior axis,
zero on the other two axes. -/
theorem claim_ac_pc_images_symmetric (ac pc ih : Vec3) (h1 : ac ≠ pc)
    (h2 : cross3 (ac - pc) (ih - ac) ≠ 0) :
    (applyHom (getMatrixToACPC ac pc ih) ac).1 = ⟨0, norm3 (ac - pc) / 2, 0⟩ ∧
    (applyHom (getMatrixToACPC ac pc ih) pc).1 = ⟨0, -(norm3 (ac - pc) / 2), 0⟩ ∧
    0 < norm3 (ac - pc) :=
  ⟨applyHom_ac ac pc ih h1, applyHom_pc ac pc ih h1,
   norm3_pos (ac - pc) (pcAcOf_ne_zero ac pc h1)⟩

theorem claim_ac_pc_images_symmetric_witness :
    ((⟨0, 5, 0⟩ : Vec3) ≠ ⟨0, -5, 0⟩ ∧
      cross3 ((⟨0, 5, 0⟩ : Vec3) - ⟨0, -5, 0⟩) ((⟨0, 0, 10⟩ : Vec3) - ⟨0, 5, 0⟩) ≠ 0) ∧
    ((applyHom (getMatrixToACPC ⟨0, 5, 0⟩ ⟨0, -5, 0⟩ ⟨0, 0, 10⟩) ⟨0, 5, 0⟩).1
        = ⟨0, norm3 ((⟨0, 5, 0⟩ : Vec3) - ⟨0, -5, 0⟩) / 2, 0⟩ ∧
     (applyHom (getMatrixToACPC ⟨0, 5, 0⟩ ⟨0, -5, 0⟩ ⟨0, 0, 10⟩) ⟨0, -5, 0⟩).1
        = ⟨0, -(norm3 ((⟨0, 5, 0⟩ : Vec3) - ⟨0, -5, 0⟩) / 2), 0⟩ ∧
     0 < norm3 ((⟨0, 5, 0⟩ : Vec3) - ⟨0, -5, 0⟩)) :=
  ⟨⟨by intro h; have hy := congrArg Vec3.y h; norm_num at hy,
    by intro h; have hx := congrArg Vec3.x h; norm_num [cross3] at hx⟩,
   claim_ac_pc_images_symmetric ⟨0, 5, 0⟩ ⟨0, -5, 0⟩ ⟨0, 0, 10⟩
     (by intro h; have hy := congrArg Vec3.y h; norm_num at hy)
     (by intro h; have hx := congrArg Vec3.x h; norm_num [cross3] at hx)⟩

/-- C6: swapping `ac` and `pc` negates the anteroposterior (`yAxis`) row of
the returned matrix, while both transforms still map the common MCP
`(ac+pc)/2` to the origin. -/
theorem claim_swap_negates_anteroposterior_axis (ac pc ih : Vec3) (h1 : ac ≠ pc)
    (h2 : cross3 (ac - pc) (ih - ac) ≠ 0) :
    (getMatrixToACPC pc ac ih).yRow = - (getMatrixToACPC ac pc ih).yRow ∧
    (applyHom (getMatrixToACPC pc ac ih) (mcpOf ac pc)).1 = 0 ∧
    (applyHom (getMatrixToACPC ac pc ih) (mcpOf ac pc)).1 = 0 := by
  refine ⟨yAxisOf_swap ac pc, ?_, applyHom_mcp_eq_zero ac pc ih h1⟩
  have h := applyHom_mcp_eq_zero pc ac ih (Ne.symm h1)
  rw [mcpOf_swap ac pc] at h
  exact h

theorem claim_swap_negates_anteroposterior_axis_witness :
    ((⟨0, 5, 0⟩ : Vec3) ≠ ⟨0, -5, 0⟩ ∧
      cross3 ((⟨0, 5, 0⟩ : Vec3) - ⟨0, -5, 0⟩) ((⟨0, 0, 10⟩ : Vec3) - ⟨0, 5, 0⟩) ≠ 0) ∧
    ((getMatrixToACPC ⟨0, -5, 0⟩ ⟨0, 5, 0⟩ ⟨0, 0, 10⟩).yRow
        = - (getMatrixToACPC ⟨0, 5, 0⟩ ⟨0, -5, 0⟩ ⟨0, 0, 10⟩).yRow ∧
     (applyHom (getMatrixToACPC ⟨0, -5, 0⟩ ⟨0, 5, 0⟩ ⟨0, 0, 10⟩)
        (mcpOf ⟨0, 5, 0⟩ ⟨0, -5, 0⟩)).1 = 0 ∧
     (applyHom (getMatrixToACPC ⟨0, 5, 0⟩ ⟨0, -5, 0⟩ ⟨0, 0, 10⟩)
        (mcpOf ⟨0, 5, 0⟩ ⟨0, -5, 0⟩)).1 = 0) :=
  ⟨⟨by intro h; have hy := congrArg Vec3.y h; norm_num at hy,
    by intro h; have hx := congrArg Vec3.x h; norm_num [cross3] at hx⟩,
   claim_swap_negates_anteroposterior_axis ⟨0, 5, 0⟩ ⟨0, -5, 0⟩ ⟨0, 0, 10⟩
     (by intro h; have hy := congrArg Vec3.y h; norm_num at hy)
     (by intro h; have hx := congrArg Vec3.x h; norm_num [cross3] at hx)⟩

/-- C7: `myLogic.run` performs no validation of the number of points or of
finiteness: with four fiducials it silently computes the matrix from the
first three (the loop bodies for `i >= 3` match none of the `if` tests), and
with fewer than three the Python locals stay unbound and line 201 raises a
bare `NameError` (modelled as `none`), not an `InvalidInputError` — no such
class exists in the source. -/
theorem claim_run_with_wrong_point_count :
    myLogicRunMatrix [⟨0, 5, 0⟩, ⟨0, -5, 0⟩, ⟨0, 0, 10⟩, ⟨7, 7, 7⟩]
      = some (getMatrixToACPC ⟨0, 5, 0⟩ ⟨0, -5, 0⟩ ⟨0, 0, 10⟩) ∧
    myLogicRunMatrix [⟨0, 5, 0⟩, ⟨0, -5, 0⟩] = none := by
  constructor <;> rfl

/-- C8: on the concrete scenario `ac=(0,5,0)`, `pc=(0,-5,0)`, `ih=(0,0,10)`
the computed `yAxis` is `(0,1,0)`, the transform fixes `ac` and `pc`, and the
image of `ih` has zero anteroposterior (y) component. -/
theorem claim_concrete_scenario :
    yAxisOf ⟨0, 5, 0⟩ ⟨0, -5, 0⟩ = ⟨0, 1, 0⟩ ∧
    (applyHom (getMatrixToACPC ⟨0, 5, 0⟩ ⟨0, -5, 0⟩ ⟨0, 0, 10⟩) ⟨0, 5, 0⟩).1 = ⟨0, 5, 0⟩ ∧
    (applyHom (getMatrixToACPC ⟨0, 5, 0⟩ ⟨0, -5, 0⟩ ⟨0, 0, 10⟩) ⟨0, -5, 0⟩).1 = ⟨0, -5, 0⟩ ∧
    ((applyHom (getMatrixToACPC ⟨0, 5, 0⟩ ⟨0, -5, 0⟩ ⟨0, 0, 10⟩) ⟨0, 0, 10⟩).1).y = 0 := by
  refine ⟨?_, ?_, ?_, ?_⟩
  · have hpc : pcAcOf ⟨0, 5, 0⟩ ⟨0, -5, 0⟩ = ⟨0, 10, 0⟩ := by
      unfold pcAcOf
      ext <;> norm_num
    unfold yAxisOf
    rw [hpc, norm3_ten_y]
    ext <;> norm_num
  · rw [getMatrixToACPC_concrete]
    unfold applyHom dot3
    ext <;> norm_num
  · rw [getMatrixToACPC_concrete]
    unfold applyHom dot3
    ext <;> norm_num
  · rw [getMatrixToACPC_concrete]
    unfold applyHom dot3
    norm_num

/-- A concrete three-array heap holding the landmarks at addresses 0, 1, 2. -/
def mem0 : Mem :=
  ⟨fun a => if a = 0 then ⟨0, 5, 0⟩ else if a = 1 then ⟨0, -5, 0⟩ else ⟨0, 0, 10⟩, 3⟩

theorem getMatrixToACPCHeap_frame_witness :
    ((0 : Nat) < mem0.next ∧ (1 : Nat) < mem0.next ∧ (2 : Nat) < mem0.next) ∧
    ((∀ a, a < mem0.next → ((getMatrixToACPCHeap mem0 0 1 2).1).data a = mem0.data a) ∧
      (getMatrixToACPCHeap mem0 0 1 2).2
        = getMatrixToACPC (mem0.data 0) (mem0.data 1) (mem0.data 2)) :=
  ⟨⟨by decide, by decide, by decide⟩,
   getMatrixToACPCHeap_frame mem0 0 1 2 (by decide) (by decide) (by decide)⟩

/-- C10: the midline point enters the result only through the direction of
`ih - ac`: replacing `ih` by any point `ac + k*(ih - ac)` on the same ray
(`k > 0`) leaves the returned matrix unchanged. -/
theorem claim_midline_ray_invariance (ac pc ih : Vec3) (k : ℝ) (h1 : ac ≠ pc)
    (h2 : cross3 (ac - pc) (ih - ac) ≠ 0) (hk : 0 < k) :
    getMatrixToACPC ac pc (ac + k • (ih - ac)) = getMatrixToACPC ac pc ih :=
  getMatrixToACPC_ray ac pc ih k hk

theorem claim_midline_ray_invariance_witness :
    ((⟨0, 5, 0⟩ : Vec3) ≠ ⟨0, -5, 0⟩ ∧
      cross3 ((⟨0, 5, 0⟩ : Vec3) - ⟨0, -5, 0⟩) ((⟨0, 0, 10⟩ : Vec3) - ⟨0, 5, 0⟩) ≠ 0 ∧
      (0 : ℝ) < 2) ∧
    getMatrixToACPC ⟨0, 5, 0⟩ ⟨0, -5, 0⟩
        ((⟨0, 5, 0⟩ : Vec3) + (2 : ℝ) • ((⟨0, 0, 10⟩ : Vec3) - ⟨0, 5, 0⟩))
      = getMatrixToACPC ⟨0, 5, 0⟩ ⟨0, -5, 0⟩ ⟨0, 0, 10⟩ :=
  ⟨⟨by intro h; have hy := congrArg Vec3.y h; norm_num at hy,
    by intro h; have hx := congrArg Vec3.x h; norm_num [cross3] at hx,
    by norm_num⟩,
   claim_midline_ray_invariance ⟨0, 5, 0⟩ ⟨0, -5, 0⟩ ⟨0, 0, 10⟩ 2
     (by intro h; have hy := congrArg Vec3.y h; norm_num at hy)
     (by intro h; have hx := congrArg Vec3.x h; norm_num [cross3] at hx)
     (by norm_num)⟩
